import Mathlib

/-!
Verification of the AST-building and evaluation core of
`rdflib/plugins/sparql/parserutils.py` and of the TSV result parser in
`rdflib/plugins/sparql/results/tsvresults.py`, via a shallow embedding.

Python values flowing through `value` / `CompValue` / `Expr` / `Comp` are
embedded as the inductive type `Val` below.  Machine-level Python features
(arbitrary objects, dynamic dispatch) are restricted to the constructor
shapes that the code actually tests with `isinstance`.
-/

/-- The evaluation-domain error hierarchy (`SPARQLError`, with its subclass
`NotBoundError`) from `rdflib.plugins.sparql.sparql`. -/
inductive SPARQLErr where
  | notBound
  | generic (msg : String)
deriving DecidableEq, Repr

/-- Keys a binding context is queried with: `Variable` or `BNode` instances
(`isinstance(val, (BNode, Variable))` in `value`). -/
inductive VarKey where
  | var (name : String)
  | bnode (name : String)
deriving DecidableEq, Repr

/-- Python exceptions that the embedded code can raise: evaluation-domain
errors (`SPARQLError` and subclasses), `KeyError` from dict lookup, and any
other exception class (`Exception`, `TypeError`, `AttributeError`, ...). -/
inductive PyExc where
  | sparql (e : SPARQLErr)
  | keyError (k : String)
  | other (msg : String)
deriving DecidableEq, Repr

mutual
/-- The universe of runtime values handled by `value` and stored as
attributes: evaluable nodes (`Expr`), plain `CompValue` nodes, Python
lists, `plist` (the distinguished list subclass), `Variable`/`BNode`
placeholders, pyparsing `ParseResults`, concrete terms (literals, strings,
IRIs, numbers - all opaque to this layer, constructor `lit`), and stored
`SPARQLError` objects.  An `Expr` carries the behaviour of its bound
evaluation function: that function is arbitrary external Python code, so it
is embedded by its outcome (`FnBehavior`). -/
inductive Val where
  | expr (name : String) (fnb : FnBehavior)
  | compv (name : String)
  | list (xs : ValList)
  | plist (xs : ValList)
  | term (k : VarKey)
  | parseResults (xs : ValList)
  | lit (s : String)
  | err (e : SPARQLErr)

/-- Lists of `Val`, kept mutually inductive with `Val` so that all
functions below are structurally recursive and kernel-reducible. -/
inductive ValList where
  | nil
  | cons (x : Val) (xs : ValList)

/-- Outcome of invoking the evaluation function bound to an `Expr`: return
a value, raise an evaluation-domain error, or raise any other exception. -/
inductive FnBehavior where
  | ret (v : Val)
  | raiseSparql (e : SPARQLErr)
  | raiseOther (msg : String)
end

/-- Length of a `ValList` (`len` of the underlying Python sequence). -/
def ValList.length : ValList → Nat
  | .nil => 0
  | .cons _ xs => xs.length + 1

/-- Concatenation of `ValList`s (`list.append` iterated). -/
def ValList.append : ValList → ValList → ValList
  | .nil, ys => ys
  | .cons x xs, ys => .cons x (ValList.append xs ys)

/-- Conversion from ordinary Lean lists. -/
def vlOfList : List Val → ValList
  | [] => .nil
  | x :: xs => .cons x (vlOfList xs)

/-- A binding context, the external collaborator consumed via
`ctx.get(key)`: a finite map from `Variable`/`BNode` keys to stored values,
where a stored value may itself be a `SPARQLError` object. -/
def Ctx := List (VarKey × Val)

/-- `ctx.get(key)`: `none` models Python `None` (absent / unbound). -/
def Ctx.get : Ctx → VarKey → Option Val
  | [], _ => none
  | (k0, v) :: rest, k => if k0 = k then some v else Ctx.get rest k

/-- The result of `self._evalfn(ctx)` as observed by `Expr.eval`: the
try/except/finally in `Expr.eval` turns a raised `SPARQLError` into an
ordinary return value and lets every other exception propagate. -/
def evalOutcome : FnBehavior → Except PyExc Val
  | .ret v => .ok v
  | .raiseSparql e => .ok (.err e)
  | .raiseOther m => .error (.other m)

mutual
/-- `value(ctx, val, variables=False, errors=False)` from
`parserutils.py`.  Branches in source order: `Expr` (evaluated), bare
`CompValue` (raises `Exception`), Python `list` (element-wise recursion -
this also catches `plist`, a `list` subclass, and returns a plain list),
`BNode`/`Variable` (context lookup with the `errors` / `variables`
policies), singleton `ParseResults` (collapse and recurse), and the
identity fallthrough. -/
def value (ctx : Ctx) (val : Val) (vars : Bool) (errors : Bool) :
    Except PyExc Val :=
  match val with
  | .expr _ fnb => evalOutcome fnb
  | .compv n => .error (.other ("What do I do with this CompValue? " ++ n))
  | .list xs =>
      match valueVL ctx xs vars errors with
      | .ok ys => .ok (.list ys)
      | .error e => .error e
  | .plist xs =>
      match valueVL ctx xs vars errors with
      | .ok ys => .ok (.list ys)
      | .error e => .error e
  | .term k =>
      match Ctx.get ctx k with
      | some r =>
          match r, errors with
          | .err e, false => .error (.sparql e)
          | _, _ => .ok r
      | none =>
          if vars then .ok (.term k)
          else .error (.sparql .notBound)
  | .parseResults (.cons x .nil) => value ctx x vars errors
  | .parseResults xs => .ok (.parseResults xs)
  | .lit s => .ok (.lit s)
  | .err e => .ok (.err e)

/-- The list comprehension `[value(ctx, x, variables, errors) for x in
val]`: left-to-right, first raised exception propagates. -/
def valueVL (ctx : Ctx) (xs : ValList) (vars : Bool) (errors : Bool) :
    Except PyExc ValList :=
  match xs with
  | .nil => .ok .nil
  | .cons x rest =>
      match value ctx x vars errors with
      | .error e => .error e
      | .ok y =>
          match valueVL ctx rest vars errors with
          | .error e => .error e
          | .ok ys => .ok (.cons y ys)
end

/-- The mutable state of a `CompValue` (and of its subclass `Expr`): tag
(`self.name`), ordered attribute mapping (the `OrderedDict` contents), and
the transient evaluation context (`self.ctx`; reading the attribute when it
was never assigned yields `None` through `__getattr__`, modelled by
`none`). -/
structure CompValueS where
  name : String
  attrs : List (String × Val)
  ctx : Option Ctx

/-- `OrderedDict` key lookup over the ordered attribute pairs. -/
def lookupAttr : List (String × Val) → String → Option Val
  | [], _ => none
  | (k0, v) :: rest, a => if k0 = a then some v else lookupAttr rest a

/-- `OrderedDict` key assignment: an existing key keeps its position and
gets the new value; a fresh key is appended at the end. -/
def setAttr : List (String × Val) → String → Val → List (String × Val)
  | [], k, v => [(k, v)]
  | (k0, v0) :: rest, k, v =>
      if k0 = k then (k, v) :: rest else (k0, v0) :: setAttr rest k v

/-- `CompValue._value(self, val, variables=False, errors=False)`.  Note the
source passes only `variables` on to `value`: `value(self.ctx, val,
variables)` - the `errors` argument is accepted but never forwarded, so
resolution always runs with `errors=False`. -/
def CompValueS.underscoreValue (self : CompValueS) (val : Val)
    (vars : Bool) (errors : Bool) : Except PyExc Val :=
  match self.ctx with
  | some c => value c val vars false
  | none => .ok val

/-- `CompValue.get(self, a, variables=False, errors=False)`: the
`OrderedDict.get(self, a, a)` default for an absent key is the key `a`
itself (a Python string, embedded as `Val.lit a`). -/
def CompValueS.get (self : CompValueS) (a : String)
    (vars : Bool) (errors : Bool) : Except PyExc Val :=
  CompValueS.underscoreValue self
    (match lookupAttr self.attrs a with
     | some v => v
     | none => .lit a) vars errors

/-- `CompValue.__getitem__`: raises `KeyError` on an absent key, otherwise
resolves through `_value` with default flags. -/
def CompValueS.getitem (self : CompValueS) (a : String) : Except PyExc Val :=
  match lookupAttr self.attrs a with
  | some v => CompValueS.underscoreValue self v false false
  | none => .error (.keyError a)

/-- `CompValue.__getattr__`: delegates to `self[a]` and turns a `KeyError`
into `None`; any other exception raised during resolution propagates. -/
def CompValueS.getattr (self : CompValueS) (a : String) :
    Except PyExc (Option Val) :=
  match CompValueS.getitem self a with
  | .ok v => .ok (some v)
  | .error (.keyError _) => .ok none
  | .error e => .error e

/-- `Expr.eval(self, ctx)`: `try: self.ctx = ctx; return self._evalfn(ctx)
except SPARQLError as e: return e finally: self.ctx = None`.  The bound
evaluation function is arbitrary external code, embedded as its behaviour
`fnb` on the supplied context.  Returns the call result (or propagated
exception) together with the node state after the call. -/
def exprEval (self : CompValueS) (ctx : Ctx) (fnb : Ctx → FnBehavior) :
    Except PyExc Val × CompValueS :=
  (evalOutcome (fnb ctx), { self with ctx := none })

/-- The result of parsing a `Param`: `ParamValue.__init__(self, name,
tokenList, isList)` already collapsed a singleton `list`/`ParseResults`
token sequence to its sole element (see `mkParamValue`). -/
structure ParamValueS where
  name : String
  tokenList : Val
  isList : Bool

/-- `ParamValue.__init__`: collapse a singleton sequence (`list`, its
subclass `plist`, or `ParseResults`) to its sole element, then store. -/
def mkParamValue (name : String) (tokenList : Val) (isList : Bool) :
    ParamValueS :=
  { name := name, isList := isList,
    tokenList :=
      match tokenList with
      | .list (.cons x .nil) => x
      | .plist (.cons x .nil) => x
      | .parseResults (.cons x .nil) => x
      | t => t }

/-- One token of the sequence a production hands to `Comp.postParse`:
either a labeled sub-result (`ParamValue` instance) or any other matched
token (punctuation, keywords, nested nodes), which the loop skips. -/
inductive Token where
  | pv (p : ParamValueS)
  | raw (v : Val)

/-- One iteration of the token loop in `Comp.postParse`: labeled list
matches are appended to the `plist` created at the first occurrence
(`res[t.name].append` also works on a plain Python `list`, and raises
`AttributeError` on any non-list stored value); labeled scalar matches
overwrite; everything else is skipped. -/
def postParseStep (res : List (String × Val)) (t : Token) :
    Except PyExc (List (String × Val)) :=
  match t with
  | .raw _ => .ok res
  | .pv p =>
      if p.isList then
        match lookupAttr res p.name with
        | none => .ok (setAttr res p.name (.plist (.cons p.tokenList .nil)))
        | some (.plist xs) =>
            .ok (setAttr res p.name
              (.plist (ValList.append xs (.cons p.tokenList .nil))))
        | some (.list xs) =>
            .ok (setAttr res p.name
              (.list (ValList.append xs (.cons p.tokenList .nil))))
        | some _ => .error (.other "AttributeError: append")
      else .ok (setAttr res p.name p.tokenList)

/-- The attribute mapping built by `Comp.postParse(self, instring, loc,
tokenList)`.  `hasEvalFn` is whether `setEvalFn` registered an evaluation
function (then the node is an `Expr` and the special case is skipped);
otherwise a node tagged `ServiceGraphPattern` first stores, under
`service_string`, the verbatim source text spanned by the production
(computed by the external pyparsing machinery
`originalTextFor(self.expr).searchString(instring)[0][0]`, supplied here as
`serviceText`).  Then the token loop of `postParseStep` runs. -/
def postParseAttrs (tag : String) (hasEvalFn : Bool) (serviceText : String)
    (tokens : List Token) : Except PyExc (List (String × Val)) :=
  let init : List (String × Val) :=
    if hasEvalFn then []
    else if tag = "ServiceGraphPattern" then
      [("service_string", Val.lit serviceText)]
    else []
  tokens.foldlM postParseStep init

/-- A positional entry of one parsed TSV data row, as handed to
`TSVResultParser.convertTerm`: the `NONE_VALUE` sentinel produced by the
`EMPTY` rule, a `CompValue` node (the `literal` production), or an already
concrete term (IRI, blank node label, numeric or boolean literal). -/
inductive RowTerm where
  | noneV
  | comp (c : CompValueS)
  | plain (v : Val)

/-- The arguments of the `RDFLiteral(t.string, lang=t.lang,
datatype=t.datatype)` construction (each read through `__getattr__`, so an
absent attribute contributes Python `None` = `none`), or an
already-concrete term passed through unchanged. -/
inductive ConvTerm where
  | literal (string : Option Val) (lang : Option Val) (datatype : Option Val)
  | plain (v : Val)

/-- `TSVResultParser.convertTerm(self, t)`: the `NONE_VALUE` sentinel maps
to `None`; a `CompValue` tagged `literal` is converted by reading its
`string`/`lang`/`datatype` attributes directly (no binding context); any
other `CompValue` raises; anything else is returned as-is. -/
def convertTerm (t : RowTerm) : Except PyExc (Option ConvTerm) :=
  match t with
  | .noneV => .ok none
  | .comp c =>
      if c.name = "literal" then
        match CompValueS.getattr c "string" with
        | .error e => .error e
        | .ok s =>
            match CompValueS.getattr c "lang" with
            | .error e => .error e
            | .ok l =>
                match CompValueS.getattr c "datatype" with
                | .error e => .error e
                | .ok d => .ok (some (.literal s l d))
      else .error (.other "I dont know how to handle this")
  | .plain v => .ok (some (.plain v))

/-- Split a character sequence at every occurrence of a separator
character; `n` separators yield `n+1` (possibly empty) fields.  This is
how the `ROW` and `HEADER` rules of `tsvresults.py` cut a line: a field
that is empty because the next character is a tab or the line end is
exactly what the lookahead rule `EMPTY = FollowedBy(LineEnd()) |
FollowedBy("\t")` matches. -/
def splitOnChar (c : Char) : List Char → List (List Char)
  | [] => [[]]
  | x :: rest =>
      if x = c then [] :: splitOnChar c rest
      else
        match splitOnChar c rest with
        | [] => [[x]]
        | h :: t => (x :: h) :: t

/-- Modelled from the spec: the `Var` token rule (a variable written
`?name` or `$name`) lives in `rdflib/plugins/sparql/parser.py`, which is
not part of the supplied sources; the spec describes the header as
tab-separated variable names. -/
def parseVar (cs : List Char) : Option String :=
  match cs with
  | c :: rest =>
      if c = '?' ∨ c = '$' then some (String.mk rest) else none
  | [] => none

/-- Read characters up to an unescaped closing quote; returns the body and
the remainder after the quote. -/
def readQuoted : List Char → Option (List Char × List Char)
  | [] => none
  | c :: rest =>
      if c = '"' then some ([], rest)
      else
        match readQuoted rest with
        | some (body, rem) => some (c :: body, rem)
        | none => none

/-- The token sequence the `RDFLITERAL` production of `tsvresults.py`
hands to `Comp.postParse`: a `Param("string", ...)` match, optionally
followed by a `Param("lang", ...)` match or by the unlabeled `"^^"` token
and a `Param("datatype", ...)` match. -/
def literalTokens (content : String) (lang : Option String)
    (dt : Option String) : List Token :=
  Token.pv (mkParamValue "string" (.lit content) false) ::
    (match lang, dt with
     | some l, _ => [Token.pv (mkParamValue "lang" (.lit l) false)]
     | none, some d =>
         [Token.raw (.lit "^^"),
          Token.pv (mkParamValue "datatype" (.lit d) false)]
     | none, none => [])

/-- Build the `literal` node for a quoted-literal field through the
`Comp("literal", ...)` machinery of `parserutils.py`; a fresh parse-time
node has no transient context attached. -/
def mkLiteralNode (content : String) (lang : Option String)
    (dt : Option String) : Option RowTerm :=
  match postParseAttrs "literal" false "" (literalTokens content lang dt) with
  | .ok attrs => some (.comp ⟨"literal", attrs, none⟩)
  | .error _ => none

/-- Modelled from the spec: one field of a data row.  An empty field (the
lookahead `EMPTY` rule: next character is a tab or the line end) yields the
`NONE_VALUE` sentinel; a quoted literal with optional `@lang` or
`^^<datatype>` suffix becomes a `literal` node (the underlying token rules
`STRING_LITERAL1/2`, `LANGTAG`, `IRIREF` live in
`rdflib/plugins/sparql/parser.py`, outside the supplied sources); IRIs in
angle brackets, blank node labels, numeric and boolean literals are
concrete tokens at this level. -/
def parseField (cs : List Char) : Option RowTerm :=
  match cs with
  | [] => some .noneV
  | c :: rest =>
      if c = '"' then
        match readQuoted rest with
        | none => none
        | some (body, rem) =>
            match rem with
            | [] => mkLiteralNode (String.mk body) none none
            | '@' :: langCs => mkLiteralNode (String.mk body)
                (some (String.mk langCs)) none
            | '^' :: '^' :: '<' :: dtCs =>
                match dtCs.getLast? with
                | some '>' =>
                    mkLiteralNode (String.mk body) none
                      (some (String.mk (dtCs.dropLast)))
                | _ => none
            | _ => none
      else some (.plain (.lit (String.mk cs)))

/-- One data line: split on tabs, parse every field. -/
def parseLine (line : String) : Option (List RowTerm) :=
  (splitOnChar '\t' line.data).mapM parseField

/-- One row of result bindings: `dict(zip(r.vars, (self.convertTerm(x) for
x in row)))` - pair variables with converted terms, truncating at the
shorter sequence (the generator is only consumed as far as `zip` pulls). -/
def convertRow (vars : List String) (terms : List RowTerm) :
    Except PyExc (List (String × Option ConvTerm)) :=
  (vars.zip terms).mapM (fun p =>
    match convertTerm p.2 with
    | .ok c => .ok (p.1, c)
    | .error e => .error e)

/-- The parsed result: header variables and one binding row per data
line. -/
structure TSVResult where
  vars : List String
  bindings : List (List (String × Option ConvTerm))

/-- `TSVResultParser.parse`, at the level of logical lines (the
reading/stripping of raw lines is I/O mechanics): parse the header into
variable names, skip blank data lines, parse each remaining line into row
terms and convert them into a binding row.  `none` models a structural
parse failure (pyparsing `ParseException`). -/
def tsvParse (header : String) (dataLines : List String) :
    Option (Except PyExc TSVResult) :=
  match (splitOnChar '\t' header.data).mapM parseVar with
  | none => none
  | some vars =>
      match (dataLines.filter (fun l => !(l == ""))).mapM parseLine with
      | none => none
      | some rows =>
          some (match rows.mapM (convertRow vars) with
                | .ok bs => .ok ⟨vars, bs⟩
                | .error e => .error e)

/-- Lookup after `OrderedDict` assignment: the assigned key reads back the
assigned value, every other key is unaffected. -/
theorem lookupAttr_setAttr (res : List (String × Val)) (k : String)
    (v : Val) (a : String) :
    lookupAttr (setAttr res k v) a
      = if k = a then some v else lookupAttr res a := by
  induction res with
  | nil => simp [setAttr, lookupAttr]
  | cons p rest ih =>
      obtain ⟨k0, v0⟩ := p
      by_cases hk : k0 = k
      · subst hk
        by_cases ha : k0 = a <;> simp [setAttr, lookupAttr, ha]
      · by_cases ha : k0 = a
        · subst ha
          have hk' : ¬ k = k0 := fun h => hk h.symm
          simp [setAttr, lookupAttr, hk, hk']
        · simp [setAttr, lookupAttr, hk, ha, ih]

/-- The effect of one `postParseStep` on a token that is not a labeled
match, or whose label differs from `a`: the stored value under `a` is
unchanged (when the step does not raise). -/
theorem postParseStep_preserves (res res' : List (String × Val))
    (t : Token) (a : String)
    (ht : ∀ p, t = Token.pv p → p.name ≠ a)
    (hs : postParseStep res t = .ok res') :
    lookupAttr res' a = lookupAttr res a := by
  cases t with
  | raw v => cases hs; rfl
  | pv p =>
      have hpa : p.name ≠ a := ht p rfl
      by_cases hl : p.isList
      · simp [postParseStep, hl] at hs
        cases hget : lookupAttr res p.name <;> rw [hget] at hs
        · cases hs; simp [lookupAttr_setAttr, hpa]
        · rename_i r
          cases r <;> simp at hs <;>
            (cases hs; simp [lookupAttr_setAttr, hpa])
      · simp [postParseStep, hl] at hs
        cases hs; simp [lookupAttr_setAttr, hpa]

/-- The scalar part of the `Comp.postParse` token loop, as a pure fold:
with only scalar (`isList=false`) labeled matches no step can raise. -/
def scalarFold (res : List (String × Val)) (t : Token) :
    List (String × Val) :=
  match t with
  | .raw _ => res
  | .pv p => setAttr res p.name p.tokenList

/-- With only scalar labeled matches, the monadic token loop never raises
and agrees with the pure fold. -/
theorem foldlM_scalar (tokens : List Token)
    (h : ∀ p, Token.pv p ∈ tokens → p.isList = false) :
    ∀ res, List.foldlM postParseStep res tokens
      = .ok (List.foldl scalarFold res tokens) := by
  induction tokens with
  | nil => intro res; rfl
  | cons t rest ih =>
      intro res
      have hrest : ∀ p, Token.pv p ∈ rest → p.isList = false :=
        fun p hp => h p (List.mem_cons_of_mem _ hp)
      cases t with
      | raw v =>
          rw [List.foldlM_cons]
          simpa [postParseStep, scalarFold] using ih hrest res
      | pv p =>
          have hp : p.isList = false := h p (List.mem_cons_self _ _)
          rw [List.foldlM_cons]
          simpa [postParseStep, hp, scalarFold] using
            ih hrest (setAttr res p.name p.tokenList)

/-- The value the last scalar labeled match named `a` carries, scanning
the token sequence from the right (`none` when no scalar match is named
`a`). -/
def lastWrite (tokens : List Token) (a : String) : Option Val :=
  match tokens with
  | [] => none
  | t :: rest =>
      match lastWrite rest a with
      | some v => some v
      | none =>
          match t with
          | .pv p =>
              if p.isList = false ∧ p.name = a then some p.tokenList
              else none
          | .raw _ => none

/-- The names of the scalar labeled matches of a token sequence, in match
order. -/
def scalarNames : List Token → List String
  | [] => []
  | .pv p :: rest =>
      if p.isList then scalarNames rest else p.name :: scalarNames rest
  | .raw _ :: rest => scalarNames rest

/-- Folding the scalar loop realises last-write-wins under every key. -/
theorem lookupAttr_foldl_scalar (tokens : List Token)
    (h : ∀ p, Token.pv p ∈ tokens → p.isList = false) :
    ∀ (res : List (String × Val)) (a : String),
      lookupAttr (List.foldl scalarFold res tokens) a
        = match lastWrite tokens a with
          | some v => some v
          | none => lookupAttr res a := by
  induction tokens with
  | nil => intro res a; rfl
  | cons t rest ih =>
      intro res a
      have hrest : ∀ p, Token.pv p ∈ rest → p.isList = false :=
        fun p hp => h p (List.mem_cons_of_mem _ hp)
      rw [List.foldl_cons, ih hrest]
      cases hlast : lastWrite rest a with
      | some v => simp [lastWrite, hlast]
      | none =>
          cases t with
          | raw v => simp [lastWrite, hlast, scalarFold]
          | pv p =>
              have hp : p.isList = false := h p (List.mem_cons_self _ _)
              by_cases hpa : p.name = a
              · simp [lastWrite, hlast, scalarFold, hp, hpa,
                  lookupAttr_setAttr]
              · have hpa' : ¬ a = p.name := fun h => hpa h.symm
                simp [lastWrite, hlast, scalarFold, hp, hpa,
                  lookupAttr_setAttr, hpa']

/-- `lastWrite` finds a value exactly for the scalar labeled names. -/
theorem lastWrite_isSome_iff (tokens : List Token) (a : String) :
    (lastWrite tokens a).isSome = true ↔ a ∈ scalarNames tokens := by
  induction tokens with
  | nil => simp [lastWrite, scalarNames]
  | cons t rest ih =>
      cases hlast : lastWrite rest a with
      | some v =>
          have hmem : a ∈ scalarNames rest := by
            rw [← ih, hlast]; rfl
          cases t with
          | raw w => simpa [lastWrite, hlast, scalarNames] using hmem
          | pv p =>
              by_cases hl : p.isList <;>
                simp [lastWrite, hlast, scalarNames, hl, hmem]
      | none =>
          have hnot : ¬ a ∈ scalarNames rest := by
            rw [← ih, hlast]; simp
          cases t with
          | raw w =>
              simp [lastWrite, hlast, scalarNames]
              exact hnot
          | pv p =>
              by_cases hl : p.isList
              · simp [lastWrite, hlast, scalarNames, hl]
                exact hnot
              · by_cases hpa : p.name = a
                · simp [lastWrite, hlast, scalarNames, hl, hpa]
                · have hpa' : ¬ a = p.name := fun h => hpa h.symm
                  simp [lastWrite, hlast, scalarNames, hl, hpa, hpa']
                  exact hnot

/-- The values carried by the labeled matches named `n`, in match
order. -/
def listVals : List Token → String → List Val
  | [], _ => []
  | .pv p :: rest, n =>
      if p.name = n then p.tokenList :: listVals rest n else listVals rest n
  | .raw _ :: rest, n => listVals rest n

theorem vlOfList_append (a b : List Val) :
    vlOfList (a ++ b) = ValList.append (vlOfList a) (vlOfList b) := by
  induction a with
  | nil => rfl
  | cons x t ih => simp [vlOfList, ValList.append, ih]

theorem vlOfList_length (a : List Val) :
    (vlOfList a).length = a.length := by
  induction a with
  | nil => rfl
  | cons x t ih => simp [vlOfList, ValList.length, ih]

/-- Invariant of the token loop for one list-labeled name `n`: starting
from an accumulator that holds either nothing or a `plist` of the values
collected so far under `n`, a successful loop ends with a `plist` of those
values followed by all values labeled `n` in the remaining tokens, the
`plist` being created at the first occurrence. -/
theorem foldlM_plist_lookup (n : String) :
    ∀ (tokens : List Token),
      (∀ p, Token.pv p ∈ tokens → p.name = n → p.isList = true) →
      ∀ (res : List (String × Val)) (accL : List Val),
        ((accL = [] ∧ lookupAttr res n = none) ∨
          lookupAttr res n = some (.plist (vlOfList accL))) →
        ∀ attrs, List.foldlM postParseStep res tokens = .ok attrs →
          ((accL ++ listVals tokens n = [] ∧ lookupAttr attrs n = none) ∨
            lookupAttr attrs n
              = some (.plist (vlOfList (accL ++ listVals tokens n)))) := by
  intro tokens
  induction tokens with
  | nil =>
      intro h res accL hres attrs hok
      rw [List.foldlM_nil] at hok
      injection hok with hok
      subst hok
      simpa [listVals] using hres
  | cons t rest ih =>
      intro h res accL hres attrs hok
      have hrest : ∀ p, Token.pv p ∈ rest → p.name = n → p.isList = true :=
        fun p hp => h p (List.mem_cons_of_mem _ hp)
      rw [List.foldlM_cons] at hok
      cases t with
      | raw v =>
          have hok' : List.foldlM postParseStep res rest = .ok attrs := hok
          simpa [listVals] using ih hrest res accL hres attrs hok'
      | pv p =>
          by_cases hpn : p.name = n
          · have hl : p.isList = true := h p (List.mem_cons_self _ _) hpn
            rcases hres with ⟨haccL, hnone⟩ | hsome
            · subst haccL
              have hstep : postParseStep res (Token.pv p)
                  = .ok (setAttr res n
                      (.plist (.cons p.tokenList .nil))) := by
                simp [postParseStep, hl, hpn, hnone]
              rw [hstep] at hok
              have hok' : List.foldlM postParseStep
                  (setAttr res n (.plist (.cons p.tokenList .nil))) rest
                    = .ok attrs := hok
              have hres' : ([p.tokenList] = [] ∧
                    lookupAttr (setAttr res n
                      (.plist (.cons p.tokenList .nil))) n = none) ∨
                  lookupAttr (setAttr res n
                      (.plist (.cons p.tokenList .nil))) n
                    = some (.plist (vlOfList [p.tokenList])) :=
                Or.inr (by simp [lookupAttr_setAttr, vlOfList])
              have := ih hrest _ [p.tokenList] hres' attrs hok'
              simpa [listVals, hpn] using this
            · have hstep : postParseStep res (Token.pv p)
                  = .ok (setAttr res n
                      (.plist (ValList.append (vlOfList accL)
                        (.cons p.tokenList .nil)))) := by
                simp [postParseStep, hl, hpn, hsome]
              rw [hstep] at hok
              have hok' : List.foldlM postParseStep
                  (setAttr res n (.plist (ValList.append (vlOfList accL)
                    (.cons p.tokenList .nil)))) rest = .ok attrs := hok
              have hres' : ((accL ++ [p.tokenList]) = [] ∧
                    lookupAttr (setAttr res n
                      (.plist (ValList.append (vlOfList accL)
                        (.cons p.tokenList .nil)))) n = none) ∨
                  lookupAttr (setAttr res n
                      (.plist (ValList.append (vlOfList accL)
                        (.cons p.tokenList .nil)))) n
                    = some (.plist (vlOfList (accL ++ [p.tokenList]))) :=
                Or.inr (by
                  simp [lookupAttr_setAttr, vlOfList_append, vlOfList])
              have := ih hrest _ (accL ++ [p.tokenList]) hres' attrs hok'
              simpa [listVals, hpn, List.append_assoc] using this
          · cases hstep : postParseStep res (Token.pv p) with
            | error e =>
                rw [hstep] at hok
                exact Except.noConfusion hok
            | ok res' =>
                have hpres := postParseStep_preserves res res'
                    (Token.pv p) n (by intro q hq; cases hq; exact hpn) hstep
                rw [hstep] at hok
                have hok' : List.foldlM postParseStep res' rest
                    = .ok attrs := hok
                have hres' : (accL = [] ∧ lookupAttr res' n = none) ∨
                    lookupAttr res' n = some (.plist (vlOfList accL)) := by
                  rw [hpres]; exact hres
                have := ih hrest res' accL hres' attrs hok'
                simpa [listVals, hpn] using this

/-- If the value already stored under a list-labeled name is not a Python
list (for instance the string stored under `service_string`), the first
labeled match with that name makes the loop raise `AttributeError`
(`res[t.name].append` on a non-list), so the loop cannot succeed. -/
theorem foldlM_err_on_nonappendable (n : String) :
    ∀ (tokens : List Token),
      (∀ p, Token.pv p ∈ tokens → p.name = n → p.isList = true) →
      ∀ (res : List (String × Val)) (s : String),
        lookupAttr res n = some (.lit s) →
        listVals tokens n ≠ [] →
        ∀ attrs, List.foldlM postParseStep res tokens ≠ .ok attrs := by
  intro tokens
  induction tokens with
  | nil => intro _ res s _ hne attrs; exact absurd rfl hne
  | cons t rest ih =>
      intro h res s hres hne attrs hok
      have hrest : ∀ p, Token.pv p ∈ rest → p.name = n → p.isList = true :=
        fun p hp => h p (List.mem_cons_of_mem _ hp)
      rw [List.foldlM_cons] at hok
      cases t with
      | raw v =>
          have hok' : List.foldlM postParseStep res rest = .ok attrs := hok
          exact ih hrest res s hres (by simpa [listVals] using hne) attrs hok'
      | pv p =>
          by_cases hpn : p.name = n
          · have hl : p.isList = true := h p (List.mem_cons_self _ _) hpn
            have hstep : postParseStep res (Token.pv p)
                = .error (.other "AttributeError: append") := by
              simp [postParseStep, hl, hpn, hres]
            rw [hstep] at hok
            exact Except.noConfusion hok
          · cases hstep : postParseStep res (Token.pv p) with
            | error e =>
                rw [hstep] at hok
                exact Except.noConfusion hok
            | ok res' =>
                have hpres := postParseStep_preserves res res'
                    (Token.pv p) n (by intro q hq; cases hq; exact hpn) hstep
                rw [hstep] at hok
                have hok' : List.foldlM postParseStep res' rest
                    = .ok attrs := hok
                exact ih hrest res' s (hpres.trans hres)
                  (by simpa [listVals, hpn] using hne) attrs hok'

/-- C6: for a `ParamList`-labeled name `n` occurring in a production
(each labeled match named `n` being list-labeled, and at least one
occurring), whenever the node build succeeds the attribute under `n` is a
`plist` holding exactly the collapsed match values labeled `n`, in match
order - hence of length `m` for `m` occurrences. -/
theorem comp_plist_attr (tag : String) (hef : Bool) (st : String)
    (tokens : List Token) (n : String)
    (hl : ∀ p, Token.pv p ∈ tokens → p.name = n → p.isList = true)
    (hm : listVals tokens n ≠ [])
    (attrs : List (String × Val))
    (hok : postParseAttrs tag hef st tokens = .ok attrs) :
    lookupAttr attrs n = some (.plist (vlOfList (listVals tokens n))) ∧
    (vlOfList (listVals tokens n)).length = (listVals tokens n).length := by
  refine ⟨?_, vlOfList_length _⟩
  simp only [postParseAttrs] at hok
  have extract : List.foldlM postParseStep ([] : List (String × Val)) tokens
        = .ok attrs →
      lookupAttr attrs n = some (.plist (vlOfList (listVals tokens n))) := by
    intro hok'
    rcases foldlM_plist_lookup n tokens hl [] []
        (Or.inl ⟨rfl, rfl⟩) attrs hok' with ⟨hemp, _⟩ | hsome
    · exact absurd (by simpa using hemp) hm
    · simpa using hsome
  cases hef with
  | true => exact extract (by simpa using hok)
  | false =>
      by_cases htag : tag = "ServiceGraphPattern"
      · simp only [htag, if_true, Bool.false_eq_true, if_false] at hok
        by_cases hn : n = "service_string"
        · subst hn
          exact absurd hok (foldlM_err_on_nonappendable _ tokens hl
            [("service_string", Val.lit st)] st (by simp [lookupAttr]) hm attrs)
        · have hn' : ¬ ("service_string" = n) := fun h => hn h.symm
          rcases foldlM_plist_lookup n tokens hl
              [("service_string", Val.lit st)] []
              (Or.inl ⟨rfl, by simp [lookupAttr, hn']⟩) attrs hok
            with ⟨hemp, _⟩ | hsome
          · exact absurd (by simpa using hemp) hm
          · simpa using hsome
      · simp only [htag, Bool.false_eq_true, if_false] at hok
        exact extract hok

theorem comp_plist_attr_witness :
    postParseAttrs "P" false ""
        [Token.pv ⟨"item", .lit "v1", true⟩,
         Token.pv ⟨"item", .lit "v2", true⟩,
         Token.pv ⟨"item", .lit "v3", true⟩]
      = .ok [("item", .plist (.cons (.lit "v1")
          (.cons (.lit "v2") (.cons (.lit "v3") .nil))))] ∧
    lookupAttr [("item", Val.plist (.cons (.lit "v1")
          (.cons (.lit "v2") (.cons (.lit "v3") .nil))))] "item"
      = some (.plist (vlOfList [.lit "v1", .lit "v2", .lit "v3"])) ∧
    (vlOfList [Val.lit "v1", .lit "v2", .lit "v3"]).length = 3 := by
  refine ⟨rfl, ?_, ?_⟩
  · have h := comp_plist_attr "P" false ""
      [Token.pv ⟨"item", .lit "v1", true⟩,
       Token.pv ⟨"item", .lit "v2", true⟩,
       Token.pv ⟨"item", .lit "v3", true⟩] "item"
      (by
        intro p hp hn
        simp only [List.mem_cons, List.not_mem_nil, or_false] at hp
        rcases hp with hp | hp | hp <;> (cases hp; rfl))
      (by intro h; cases h)
      [("item", Val.plist (.cons (.lit "v1")
          (.cons (.lit "v2") (.cons (.lit "v3") .nil))))] rfl
    exact h.1
  · have h := comp_plist_attr "P" false ""
      [Token.pv ⟨"item", .lit "v1", true⟩,
       Token.pv ⟨"item", .lit "v2", true⟩,
       Token.pv ⟨"item", .lit "v3", true⟩] "item"
      (by
        intro p hp hn
        simp only [List.mem_cons, List.not_mem_nil, or_false] at hp
        rcases hp with hp | hp | hp <;> (cases hp; rfl))
      (by intro h; cases h)
      [("item", Val.plist (.cons (.lit "v1")
          (.cons (.lit "v2") (.cons (.lit "v3") .nil))))] rfl
    exact h.2.trans rfl

/-- A key no labeled match is named after keeps, through a successful
token loop, the value it had before the loop. -/
theorem foldlM_preserves_absent (k : String) :
    ∀ (tokens : List Token),
      (∀ p, Token.pv p ∈ tokens → p.name ≠ k) →
      ∀ res attrs, List.foldlM postParseStep res tokens = .ok attrs →
        lookupAttr attrs k = lookupAttr res k := by
  intro tokens
  induction tokens with
  | nil =>
      intro _ res attrs hok
      rw [List.foldlM_nil] at hok
      injection hok with hok
      subst hok
      rfl
  | cons t rest ih =>
      intro h res attrs hok
      have hrest : ∀ p, Token.pv p ∈ rest → p.name ≠ k :=
        fun p hp => h p (List.mem_cons_of_mem _ hp)
      rw [List.foldlM_cons] at hok
      cases hstep : postParseStep res t with
      | error e =>
          rw [hstep] at hok
          exact Except.noConfusion hok
      | ok res' =>
          have hpres := postParseStep_preserves res res' t k
            (fun q hq => by cases hq; exact h q (List.mem_cons_self _ _)) hstep
          rw [hstep] at hok
          have hok' : List.foldlM postParseStep res' rest = .ok attrs := hok
          exact (ih hrest res' attrs hok').trans hpres

/-- C7 counterexample: a `Comp` tagged `ServiceGraphPattern` that has an
evaluation function registered builds an `Expr` and skips the
`service_string` special case entirely, refuting the claim that the tag
alone decides the presence of the attribute. -/
theorem comp_service_string_cex :
    postParseAttrs "ServiceGraphPattern" true "SERVICE <x> { }" [] = .ok [] ∧
    lookupAttr ([] : List (String × Val)) "service_string" = none :=
  ⟨rfl, rfl⟩

/-- C7 (amended): when no labeled match is itself named `service_string`,
the built node carries the `service_string` attribute - holding the
verbatim source text spanned by the production's match - exactly when the
tag is `ServiceGraphPattern` AND no evaluation function is registered (the
plain-`CompValue` branch); a node built for any other tag, or with an
evaluation function bound, has no such attribute. -/
theorem comp_service_string (tag : String) (hef : Bool) (st : String)
    (tokens : List Token)
    (hns : ∀ p, Token.pv p ∈ tokens → p.name ≠ "service_string")
    (attrs : List (String × Val))
    (hok : postParseAttrs tag hef st tokens = .ok attrs) :
    lookupAttr attrs "service_string"
      = if hef = false ∧ tag = "ServiceGraphPattern"
        then some (.lit st) else none := by
  simp only [postParseAttrs] at hok
  cases hef with
  | true =>
      rw [foldlM_preserves_absent "service_string" tokens hns _ attrs
        (by simpa using hok)]
      simp [lookupAttr]
  | false =>
      by_cases htag : tag = "ServiceGraphPattern"
      · simp only [htag, if_true, Bool.false_eq_true, if_false] at hok
        rw [foldlM_preserves_absent "service_string" tokens hns _ attrs hok]
        simp [lookupAttr, htag]
      · simp only [htag, Bool.false_eq_true, if_false] at hok
        rw [foldlM_preserves_absent "service_string" tokens hns _ attrs hok]
        simp [lookupAttr, htag]

theorem comp_service_string_witness :
    lookupAttr [("service_string", Val.lit "SERVICE <s> { ?x ?y ?z }")]
        "service_string" = some (.lit "SERVICE <s> { ?x ?y ?z }") ∧
    lookupAttr [("iri", Val.lit "u")] "service_string" = none := by
  constructor
  · have h := comp_service_string "ServiceGraphPattern" false
      "SERVICE <s> { ?x ?y ?z }" [] (fun p hp => absurd hp (by simp))
      [("service_string", Val.lit "SERVICE <s> { ?x ?y ?z }")] rfl
    simpa using h
  · have h := comp_service_string "Base" false "ignored"
      [Token.pv ⟨"iri", .lit "u", false⟩]
      (by
        intro p hp
        simp only [List.mem_cons, List.not_mem_nil, or_false] at hp
        cases hp; intro h; exact absurd h (by decide))
      [("iri", Val.lit "u")] rfl
    simpa using h

/-- The identity fallthrough condition of `value`: `v` is none of the
specially handled shapes - not an `Expr`, not a bare `CompValue`, not a
Python `list` (which includes the subclass `plist`), not a
`Variable`/`BNode` placeholder, and not a singleton `ParseResults`. -/
def identityCase : Val → Prop
  | .expr _ _ => False
  | .compv _ => False
  | .list _ => False
  | .plist _ => False
  | .term _ => False
  | .parseResults xs => xs.length ≠ 1
  | .lit _ => True
  | .err _ => True

/-- C1: for every evaluable node, every binding context and every
behaviour of the bound evaluation function (normal return, raised
evaluation-domain error, or any other raised exception), the node state
after `eval` has its transient context detached (`self.ctx = None`), by
the unconditional `finally` clause. -/
theorem expr_eval_detaches_ctx (self : CompValueS) (ctx : Ctx)
    (fnb : Ctx → FnBehavior) : (exprEval self ctx fnb).2.ctx = none := rfl

/-- C2: if the bound evaluation function raises an evaluation-domain error
(`SPARQLError`, which includes `NotBoundError`), `eval` catches it and
returns the error object as its ordinary return value; any other exception
propagates to the caller; a normal return is passed through. -/
theorem expr_eval_error_policy (self : CompValueS) (ctx : Ctx)
    (fnb : Ctx → FnBehavior) :
    (∀ e, fnb ctx = .raiseSparql e →
      (exprEval self ctx fnb).1 = .ok (.err e)) ∧
    (∀ m, fnb ctx = .raiseOther m →
      (exprEval self ctx fnb).1 = .error (.other m)) ∧
    (∀ v, fnb ctx = .ret v → (exprEval self ctx fnb).1 = .ok v) := by
  refine ⟨?_, ?_, ?_⟩ <;> intro x h <;> simp [exprEval, evalOutcome, h]

theorem expr_eval_error_policy_witness :
    (exprEval ⟨"e", [], none⟩ []
      (fun _ => .raiseSparql (.generic "typeclash"))).1
        = .ok (.err (.generic "typeclash")) ∧
    (exprEval ⟨"e", [], none⟩ [] (fun _ => .raiseOther "defect")).1
        = .error (.other "defect") ∧
    (exprEval ⟨"e", [], none⟩ [] (fun _ => .ret (.lit "seven"))).1
        = .ok (.lit "seven") :=
  ⟨(expr_eval_error_policy ⟨"e", [], none⟩ [] _).1 _ rfl,
   (expr_eval_error_policy ⟨"e", [], none⟩ [] _).2.1 _ rfl,
   (expr_eval_error_policy ⟨"e", [], none⟩ [] _).2.2 _ rfl⟩

/-- C3: resolving a variable or blank-node placeholder: a stored error
value is raised when `errors` is false and returned when `errors` is true;
a bound non-error value is returned; an unbound placeholder is returned
unchanged when `vars` (allowUnbound) is true and raises `NotBoundError`
when it is false. -/
theorem value_var_resolution (ctx : Ctx) (k : VarKey)
    (vars errors : Bool) :
    (∀ e, Ctx.get ctx k = some (.err e) → errors = false →
      value ctx (.term k) vars errors = .error (.sparql e)) ∧
    (∀ e, Ctx.get ctx k = some (.err e) → errors = true →
      value ctx (.term k) vars errors = .ok (.err e)) ∧
    (∀ r, Ctx.get ctx k = some r → (∀ e, r ≠ .err e) →
      value ctx (.term k) vars errors = .ok r) ∧
    (Ctx.get ctx k = none → vars = true →
      value ctx (.term k) vars errors = .ok (.term k)) ∧
    (Ctx.get ctx k = none → vars = false →
      value ctx (.term k) vars errors = .error (.sparql .notBound)) := by
  refine ⟨?_, ?_, ?_, ?_, ?_⟩
  · intro e h he; subst he; simp [value, h]
  · intro e h he; subst he; simp [value, h]
  · intro r h hne
    cases r <;> simp [value, h] <;> cases errors <;> simp
    exact absurd rfl (hne _)
  · intro h hv; subst hv; simp [value, h]
  · intro h hv; subst hv; simp [value, h]

theorem value_var_resolution_witness :
    value [(VarKey.var "v", Val.err (.generic "div0"))]
        (.term (.var "v")) false false = .error (.sparql (.generic "div0")) ∧
    value [(VarKey.var "v", Val.err (.generic "div0"))]
        (.term (.var "v")) false true = .ok (.err (.generic "div0")) ∧
    value [(VarKey.var "v", Val.lit "bound")]
        (.term (.var "v")) false false = .ok (.lit "bound") ∧
    value [] (.term (.var "v")) true false = .ok (.term (.var "v")) ∧
    value [] (.term (.var "v")) false false
        = .error (.sparql .notBound) :=
  ⟨(value_var_resolution _ _ _ _).1 _ rfl rfl,
   (value_var_resolution _ _ _ _).2.1 _ rfl rfl,
   (value_var_resolution _ _ _ _).2.2.1 _ rfl (fun e h => Val.noConfusion h),
   (value_var_resolution _ _ _ _).2.2.2.1 rfl rfl,
   (value_var_resolution _ _ _ _).2.2.2.2 rfl rfl⟩

/-- C8: `value` is the identity on every value that is not an evaluable
node, not a bare attributed node, not a list, not a variable or blank-node
placeholder, and not a singleton raw match sequence: such values are
returned unchanged for every context and every flag setting. -/
theorem value_identity_case (ctx : Ctx) (v : Val) (vars errors : Bool)
    (h : identityCase v) : value ctx v vars errors = .ok v := by
  cases v with
  | expr n fnb => exact absurd h (by simp [identityCase])
  | compv n => exact absurd h (by simp [identityCase])
  | list xs => exact absurd h (by simp [identityCase])
  | plist xs => exact absurd h (by simp [identityCase])
  | term k => exact absurd h (by simp [identityCase])
  | parseResults xs =>
      cases xs with
      | nil => simp [value]
      | cons x t =>
          cases t with
          | nil => simp [identityCase, ValList.length] at h
          | cons y t2 => simp [value]
  | lit s => simp [value]
  | err e => simp [value]

theorem value_identity_case_witness :
    identityCase (.err (.generic "stored")) ∧
    value [] (.err (.generic "stored")) false false
        = .ok (.err (.generic "stored")) :=
  ⟨trivial, value_identity_case [] (.err (.generic "stored")) false false trivial⟩

/-- A `CompValue` with an attached transient context, one attribute `x`
holding a variable placeholder, and that variable bound in the context to
a stored `SPARQLError` value: the input refuting C4 as stated. -/
def cvStoredErr : CompValueS :=
  ⟨"n", [("x", .term (.var "v"))],
   some [(VarKey.var "v", Val.err (.generic "storedErr"))]⟩

/-- C4 counterexample: the claim says `get(name, variables, errors)`
resolves with the given `errors` (allowErrors) flag, so with `errors=true`
the stored error value would be returned as `value` returns it; but the
code path `_value` forwards only `variables` (`value(self.ctx, val,
variables)`), so the stored error is raised instead: `get` with
`errors=true` disagrees with resolution under `errors=true` at this
input. -/
theorem compValue_get_claim_cex :
    CompValueS.get cvStoredErr "x" false true
        = .error (.sparql (.generic "storedErr")) ∧
    value [(VarKey.var "v", Val.err (.generic "storedErr"))]
        (.term (.var "v")) false true = .ok (.err (.generic "storedErr")) ∧
    CompValueS.get cvStoredErr "x" false true
        ≠ value [(VarKey.var "v", Val.err (.generic "storedErr"))]
            (.term (.var "v")) false true :=
  ⟨rfl, rfl, fun h => Except.noConfusion h⟩

/-- C4 (amended): with a context attached, `get(name, variables, errors)`
resolves the stored raw value against that context with the given
`variables` (allowUnbound) flag, but the `errors` (allowErrors) flag is
discarded - resolution always runs with `allowErrors=false`; with no
context attached the raw stored value is returned unresolved. -/
theorem compValue_get_resolves (self : CompValueS) (a : String)
    (vars errors : Bool) (v : Val)
    (hv : lookupAttr self.attrs a = some v) :
    CompValueS.get self a vars errors
      = match self.ctx with
        | some c => value c v vars false
        | none => .ok v := by
  cases hctx : self.ctx <;>
    simp [CompValueS.get, CompValueS.underscoreValue, hv, hctx]

theorem compValue_get_resolves_witness :
    CompValueS.get ⟨"n", [("x", .term (.var "v"))],
        some [(VarKey.var "v", Val.lit "bnd")]⟩ "x" false false
      = .ok (.lit "bnd") :=
  (compValue_get_resolves ⟨"n", [("x", .term (.var "v"))],
      some [(VarKey.var "v", Val.lit "bnd")]⟩ "x" false false
      (.term (.var "v")) rfl).trans rfl

/-- C10: keyed access `get(name)` of a name that is not a stored attribute
key returns the queried key itself (the `OrderedDict.get(self, a, a)`
default), passed through `_value` - and since value resolution is the
identity on strings, the result is the key, with or without an attached
context; attribute-style access of the same absent name yields `None`
instead (the `KeyError` is swallowed by `__getattr__`). -/
theorem compValue_get_absent_key_default (self : CompValueS) (a : String)
    (vars errors : Bool) (h : lookupAttr self.attrs a = none) :
    CompValueS.get self a vars errors
        = CompValueS.underscoreValue self (.lit a) vars errors ∧
    CompValueS.get self a vars errors = .ok (.lit a) ∧
    CompValueS.getattr self a = .ok none := by
  refine ⟨by simp [CompValueS.get, h], ?_, ?_⟩
  · cases hctx : self.ctx <;>
      simp [CompValueS.get, CompValueS.underscoreValue, h, hctx, value]
  · simp [CompValueS.getattr, CompValueS.getitem, h]

theorem compValue_get_absent_key_default_witness :
    CompValueS.get ⟨"n", [("x", .lit "1")], some []⟩ "missing" false false
        = .ok (.lit "missing") ∧
    CompValueS.getattr ⟨"n", [("x", .lit "1")], some []⟩ "missing"
        = .ok none :=
  ⟨(compValue_get_absent_key_default ⟨"n", [("x", .lit "1")], some []⟩
      "missing" false false rfl).2.1,
   (compValue_get_absent_key_default ⟨"n", [("x", .lit "1")], some []⟩
      "missing" false false rfl).2.2⟩

/-- C9: in the tabular result parser, an empty data-row field (recognized
by lookahead onto a tab or the line end) binds the corresponding header
variable to `None`, and a parsed literal-term node is converted to a
concrete literal by reading its `string`/`lang`/`datatype` attributes with
no binding context attached (absent attributes contribute `None`).  In
particular, header `?a\t?b` with data line `"hi"@en\t` yields the bindings
`a = literal("hi", lang="en"), b = None`. -/
theorem tsv_empty_field_and_literal :
    tsvParse "?a\t?b" ["\"hi\"@en\t"]
      = some (.ok ⟨["a", "b"],
          [[("a", some (.literal (some (.lit "hi")) (some (.lit "en")) none)),
            ("b", none)]]⟩) ∧
    parseField [] = some .noneV ∧
    convertTerm .noneV = .ok none ∧
    (mkLiteralNode "hi" (some "en") none).map (fun t =>
        match t with
        | .comp c => c.ctx
        | _ => some []) = some none :=
  ⟨rfl, rfl, rfl, rfl⟩

/-- C5 counterexample: the claim says the attribute-name set of the built
node is exactly the set of labeled scalar names, for any production; but
for the `ServiceGraphPattern` tag with no evaluation function the node
additionally carries `service_string`, which is not among the labeled
names. -/
theorem comp_scalar_attrs_cex :
    postParseAttrs "ServiceGraphPattern" false "SERVICE <x> { }"
        [Token.pv ⟨"x", .lit "1", false⟩]
      = .ok [("service_string", .lit "SERVICE <x> { }"), ("x", .lit "1")] ∧
    scalarNames [Token.pv ⟨"x", .lit "1", false⟩] = ["x"] ∧
    "service_string" ∉ (["x"] : List String) ∧
    (lookupAttr [("service_string", Val.lit "SERVICE <x> { }"),
        ("x", Val.lit "1")] "service_string").isSome = true :=
  ⟨rfl, rfl, by simp, rfl⟩

/-- C5 (amended): for a production whose labeled sub-results are all
scalar (`isList=false`) with names `n1..nk`, and which is not the one
special case (tag `ServiceGraphPattern` with no evaluation function
registered), the built attribute mapping exists (no step raises), its
name set is exactly `{n1..nk}` - non-labeled tokens are discarded - and a
repeated scalar name holds the value of its last occurrence (last write
wins); in the `ServiceGraphPattern`-without-evaluation-function case the
name `service_string` is additionally present. -/
theorem comp_scalar_attrs (tag : String) (hef : Bool) (st : String)
    (tokens : List Token)
    (hsc : ∀ p, Token.pv p ∈ tokens → p.isList = false)
    (hng : ¬(hef = false ∧ tag = "ServiceGraphPattern")) :
    ∃ attrs, postParseAttrs tag hef st tokens = .ok attrs ∧
      (∀ a, lookupAttr attrs a = lastWrite tokens a) ∧
      (∀ a, (lookupAttr attrs a).isSome = true ↔ a ∈ scalarNames tokens) := by
  have hinit :
      (if hef then []
       else if tag = "ServiceGraphPattern" then
         [("service_string", Val.lit st)]
       else []) = ([] : List (String × Val)) := by
    cases hef with
    | true => rfl
    | false =>
        have : ¬ tag = "ServiceGraphPattern" := fun h => hng ⟨rfl, h⟩
        simp [this]
  refine ⟨List.foldl scalarFold [] tokens, ?_, ?_, ?_⟩
  · rw [postParseAttrs]
    rw [hinit]
    exact foldlM_scalar tokens hsc []
  · intro a
    rw [lookupAttr_foldl_scalar tokens hsc [] a]
    cases lastWrite tokens a <;> rfl
  · intro a
    rw [lookupAttr_foldl_scalar tokens hsc [] a, ← lastWrite_isSome_iff]
    cases lastWrite tokens a <;> simp [lookupAttr]

theorem comp_scalar_attrs_witness :
    ∃ attrs, postParseAttrs "Sum" false ""
        [Token.pv ⟨"x", .lit "3", false⟩, Token.raw (.lit "+"),
         Token.pv ⟨"x", .lit "4", false⟩] = .ok attrs ∧
      lookupAttr attrs "x" = some (.lit "4") ∧
      ((lookupAttr attrs "plus").isSome = true ↔
        ("plus" : String) ∈ (["x", "x"] : List String)) := by
  have h := comp_scalar_attrs "Sum" false ""
    [Token.pv ⟨"x", .lit "3", false⟩, Token.raw (.lit "+"),
     Token.pv ⟨"x", .lit "4", false⟩]
    (by
      intro p hp
      simp only [List.mem_cons, List.not_mem_nil, or_false] at hp
      rcases hp with hp | hp | hp
      · cases hp; rfl
      · exact absurd hp (by intro h; cases h)
      · cases hp; rfl)
    (by rintro ⟨-, h⟩; exact absurd h (by decide))
  obtain ⟨attrs, h1, h2, h3⟩ := h
  exact ⟨attrs, h1, (h2 "x").trans rfl, (h3 "plus").trans (by rfl)⟩
